import Mathlib

/-!
Verification of the partitioned-dataset batch-grouping abstraction described
by the repository's specification, together with the `run_rapids_experiment`
wrapper from the RAPIDS notebook.

The grouper operations (`parse`, `group`, `validate_partition_keys`) are
expressed in the repository only declaratively, through SDK configuration
fields (`partition_format`, `partition_keys`) interpreted by an external
platform; their implementations are not part of the repository's sources.
They are therefore modelled here from the specification's own description.
A path is represented by its list of `/`-separated segments; a template is a
list of segments, each either a literal or a `{key}` placeholder followed by
a literal suffix inside the same segment (as in `{genres}.wav`).
-/

namespace PartitionGrouper

/-- Modelled from the spec: a FileRecord is "a path (opaque string identifier)
plus an ordered mapping from partition-key name to string value". The path is
kept as its list of segments. -/
structure FileRecord where
  path : List String
  attrs : List (String × String)
deriving DecidableEq, Repr

/-- Modelled from the spec: one segment of a template — either a literal
path segment or a `{key}` placeholder with a literal suffix inside the same
segment (e.g. `{genres}.wav` is `hole "genres" ".wav"`). -/
inductive TSeg where
  | lit (s : String)
  | hole (key : String) (suf : String)
deriving DecidableEq, Repr

/-- Modelled from the spec: `ParseError`, raised when "the path has fewer
segments than the template requires, a literal (non-placeholder) segment in
the template does not match the corresponding path segment, or a placeholder
segment is empty". -/
inductive ParseError where
  | tooFewSegments
  | literalMismatch
  | emptySegment
deriving DecidableEq, Repr

/-- Strip a literal suffix from a path segment: `some` of the remaining text
when the segment ends with `suf`, `none` otherwise. Case-sensitive. -/
def stripSuffix (s suf : String) : Option String :=
  if suf.data <:+ s.data then
    some (String.mk (s.data.take (s.data.length - suf.data.length)))
  else none

/-- Modelled from the spec: match template segments against the aligned path
segments positionally, case-sensitively; a placeholder's matched value may
not be empty. Produces the key/value pairs in template order. -/
def matchSegs : List TSeg → List String → Except ParseError (List (String × String))
  | [], [] => .ok []
  | .lit s :: ts, p :: ps =>
      if p = s then matchSegs ts ps else .error .literalMismatch
  | .hole k suf :: ts, p :: ps =>
      match stripSuffix p suf with
      | none => .error .literalMismatch
      | some v =>
          if v = "" then .error .emptySegment
          else
            match matchSegs ts ps with
            | .error e => .error e
            | .ok rest => .ok ((k, v) :: rest)
  | _, _ => .error .tooFewSegments

/-- Modelled from the spec: `parse(path, template)` "matches the path's
trailing segments against the template positionally" and yields "a FileRecord
with one key/value pair per placeholder, in template order", failing with
`ParseError` when the path has fewer segments than the template requires. -/
def parse (path : List String) (tmpl : List TSeg) : Except ParseError FileRecord :=
  if path.length < tmpl.length then .error .tooFewSegments
  else
    match matchSegs tmpl (path.drop (path.length - tmpl.length)) with
    | .error e => .error e
    | .ok attrs => .ok ⟨path, attrs⟩

/-- Modelled from the spec: `MissingKeyError` "naming the offending key and
record". -/
structure MissingKeyError where
  key : String
  record : FileRecord
deriving DecidableEq, Repr

/-- First value stored under a key in a record's attribute list. -/
def lookupKey (k : String) : List (String × String) → Option String
  | [] => none
  | (k', v) :: rest => if k' = k then some v else lookupKey k rest

/-- Modelled from the spec: a record's "key-tuple = ordered projection onto
`keys`"; fails with `MissingKeyError` at the first key the record lacks. -/
def proj (r : FileRecord) : List String → Except MissingKeyError (List String)
  | [] => .ok []
  | k :: ks =>
      match lookupKey k r.attrs with
      | none => .error ⟨k, r⟩
      | some v =>
          match proj r ks with
          | .error e => .error e
          | .ok vs => .ok (v :: vs)

/-- A grouping result: an association list from key-tuple to the bucket of
records carrying that tuple, in first-seen order of tuples. -/
abbrev GroupMap := List (List String × List FileRecord)

/-- Insert a record into the bucket of its key-tuple, appending a fresh
bucket at the end when the tuple has not been seen before. -/
def insertRec (t : List String) (r : FileRecord) : GroupMap → GroupMap
  | [] => [(t, [r])]
  | (t', b) :: rest =>
      if t' = t then (t', b ++ [r]) :: rest else (t', b) :: insertRec t r rest

/-- Fold of `insertRec` over the input records, threading the accumulated
grouping; fails at the first record missing one of the keys. -/
def groupAux (keys : List String) : GroupMap → List FileRecord → Except MissingKeyError GroupMap
  | m, [] => .ok m
  | m, r :: rs =>
      match proj r keys with
      | .error e => .error e
      | .ok t => groupAux keys (insertRec t r m) rs

/-- Modelled from the spec: `group(records, keys)` — "for each record,
computes its key-tuple = ordered projection onto `keys`; inserts the record
into the bucket for that tuple", with output groups in first-seen order of
distinct key-tuples. -/
def group (records : List FileRecord) (keys : List String) : Except MissingKeyError GroupMap :=
  groupAux keys [] records

/-- Modelled from the spec: result of `validate_partition_keys`. -/
inductive ValidateResult where
  | ok
  | invalidKeyError
deriving DecidableEq, Repr

/-- Boolean membership of a key in a key list. -/
def keyElem (k : String) : List String → Bool
  | [] => false
  | x :: xs => if x = k then true else keyElem k xs

/-- Boolean test that every key of the first list occurs in the second. -/
def allKeysIn : List String → List String → Bool
  | [], _ => true
  | k :: ks, d => if keyElem k d then allKeysIn ks d else false

/-- Boolean test for a repeated name in a key list. -/
def hasDup : List String → Bool
  | [] => false
  | k :: ks => if keyElem k ks then true else hasDup ks

/-- Modelled from the spec: `validate_partition_keys(discovered, requested)`
"fails with `InvalidKeyError` when `requested_keys` contains a name absent
from `discovered_keys`, or contains a duplicate name". -/
def validate_partition_keys (discovered requested : List String) : ValidateResult :=
  if allKeysIn requested discovered then
    if hasDup requested then .invalidKeyError else .ok
  else .invalidKeyError

/-- First-seen deduplication: keeps the first occurrence of each element, in
order of first appearance. -/
def firstSeen : List (List String) → List (List String)
  | [] => []
  | t :: ts => t :: firstSeen (ts.filter (fun u => decide (u ≠ t)))
termination_by l => l.length
decreasing_by
  simp only [List.length_cons]
  exact Nat.lt_succ_of_le (List.length_filter_le _ _)

/-- The key-tuples of all records, in input order; fails like `group` does
when a record lacks one of the keys. -/
def projs (keys : List String) : List FileRecord → Except MissingKeyError (List (List String))
  | [] => .ok []
  | r :: rs =>
      match proj r keys with
      | .error e => .error e
      | .ok t =>
          match projs keys rs with
          | .error e => .error e
          | .ok ts => .ok (t :: ts)

/-- Effect of one insertion on the sequence of group key-tuples. -/
def insertKeys (ks : List (List String)) (t : List String) : List (List String) :=
  if t ∈ ks then ks else ks ++ [t]

/-- Number of placeholders in a template. -/
def numHoles : List TSeg → Nat
  | [] => 0
  | .lit _ :: ts => numHoles ts
  | .hole _ _ :: ts => numHoles ts + 1

/-- Substitute placeholder values (in template order) into a template,
producing the path segments the template generates for those values. -/
def subst : List TSeg → List String → List String
  | [], _ => []
  | .lit s :: ts, vs => s :: subst ts vs
  | .hole _ suf :: ts, [] => suf :: subst ts []
  | .hole _ suf :: ts, v :: vs => (v ++ suf) :: subst ts vs

/-- The key/value mapping a substitution is expected to round-trip to: one
pair per placeholder, in template order. -/
def holeAttrs : List TSeg → List String → List (String × String)
  | [], _ => []
  | .lit _ :: ts, vs => holeAttrs ts vs
  | .hole _ _ :: _, [] => []
  | .hole k _ :: ts, v :: vs => (k, v) :: holeAttrs ts vs

/-- Per-segment failure condition of `matchSegs`: a literal segment that
differs from the path segment, or a placeholder segment whose literal suffix
does not match or whose matched value is empty. -/
def segMismatch : TSeg → String → Prop
  | .lit s, p => p ≠ s
  | .hole _ suf, p => stripSuffix p suf = none ∨ stripSuffix p suf = some ""

/-- The template `{user}/{season}/{genres}.wav` of the notebook's example. -/
def exTemplate : List TSeg :=
  [.hole "user" "", .hole "season" "", .hole "genres" ".wav"]

/-- The six example paths, as segment lists. -/
def exPath1 : List String := ["user1", "winter", "disco.wav"]

def exPath2 : List String := ["user1", "fall", "orchestra.wav"]

def exPath3 : List String := ["user2", "summer", "piano.wav"]

def exPath4 : List String := ["user3", "fall", "spirituality.wav"]

def exPath5 : List String := ["user4", "spring", "piano.wav"]

def exPath6 : List String := ["user4", "fall", "piano.wav"]

/-- The records the example paths parse to. -/
def exRec1 : FileRecord :=
  ⟨exPath1, [("user", "user1"), ("season", "winter"), ("genres", "disco")]⟩

def exRec2 : FileRecord :=
  ⟨exPath2, [("user", "user1"), ("season", "fall"), ("genres", "orchestra")]⟩

def exRec3 : FileRecord :=
  ⟨exPath3, [("user", "user2"), ("season", "summer"), ("genres", "piano")]⟩

def exRec4 : FileRecord :=
  ⟨exPath4, [("user", "user3"), ("season", "fall"), ("genres", "spirituality")]⟩

def exRec5 : FileRecord :=
  ⟨exPath5, [("user", "user4"), ("season", "spring"), ("genres", "piano")]⟩

def exRec6 : FileRecord :=
  ⟨exPath6, [("user", "user4"), ("season", "fall"), ("genres", "piano")]⟩

/-- A two-record universe sharing one key value, used to instantiate the
universally quantified grouping theorems at a concrete input. -/
def wrec1 : FileRecord := ⟨["p1"], [("k", "a")]⟩

def wrec2 : FileRecord := ⟨["p2"], [("k", "a")]⟩

end PartitionGrouper

namespace RapidsNotebook

/-- The arguments with which `run_rapids_experiment` submits the experiment
(`--num_gpu`, `--part_count`, `--end_year`, `--cpu_predictor`). -/
structure SubmittedArgs where
  num_gpu : Int
  part_count : Int
  end_year : Int
  cpu_predictor : Bool
deriving DecidableEq, Repr

/-- The empirical per-GPU data partition mapping `{1: 3, 2: 4, 3: 6, 4: 8}`
from the RAPIDS notebook. -/
def max_gpu_count_data_partition_mapping : List (Int × Int) :=
  [(1, 3), (2, 4), (3, 6), (4, 8)]

/-- Association-list lookup for the partition mapping. -/
def lookupPart (g : Int) : List (Int × Int) → Option Int
  | [] => none
  | (k, v) :: rest => if k = g then some v else lookupPart g rest

/-- The messages `run_rapids_experiment` prints for the given inputs: one when
`part_count` exceeds the per-GPU mapping, one when it exceeds 11. -/
def rapids_warnings (gpu_count part_count : Int) : List String :=
  let maxPart := (lookupPart gpu_count max_gpu_count_data_partition_mapping).getD 0
  (if maxPart < part_count then
    ["Too many partitions for the number of GPUs, exceeding memory threshold"]
   else []) ++
  (if 11 < part_count then
    ["Warning: Maximum number of partitions available is 11"]
   else [])

/-- `run_rapids_experiment(cpu_training, gpu_count, part_count)` from the
RAPIDS notebook: raises unless `gpu_count` is in `[1, 2, 3, 4]`; warns (print
only) when `part_count` exceeds the per-GPU mapping; caps `part_count` at 11
with a warning; sets `end_year` to 2001 when the capped `part_count` exceeds
4, else 2000; then submits the experiment with those arguments. The result
models (printed warnings, submitted script arguments). -/
def run_rapids_experiment (cpu_training : Bool) (gpu_count part_count : Int) :
    Except String (List String × SubmittedArgs) :=
  if gpu_count = 1 ∨ gpu_count = 2 ∨ gpu_count = 3 ∨ gpu_count = 4 then
    let pc : Int := if 11 < part_count then 11 else part_count
    let ey : Int := if 4 < pc then 2001 else 2000
    .ok (rapids_warnings gpu_count part_count, ⟨gpu_count, pc, ey, cpu_training⟩)
  else
    .error ("Value specified for the number of GPUs to use " ++ toString gpu_count ++ " is invalid")

end RapidsNotebook

/-! ## Theorems about the partition grouper -/

namespace PartitionGrouper

theorem stripSuffix_append (v suf : String) : stripSuffix (v ++ suf) suf = some v := by
  unfold stripSuffix
  have hdata : (v ++ suf).data = v.data ++ suf.data := by cases v; cases suf; rfl
  rw [hdata, if_pos (List.suffix_append _ _), List.length_append, Nat.add_sub_cancel,
    List.take_left]

theorem subst_length (ts : List TSeg) (vs : List String) :
    (subst ts vs).length = ts.length := by
  induction ts generalizing vs with
  | nil => rfl
  | cons t ts ih =>
    cases t with
    | lit s => simp [subst, ih]
    | hole k suf => cases vs <;> simp [subst, ih]

theorem matchSegs_subst (ts : List TSeg) (vs : List String)
    (hlen : vs.length = numHoles ts) (hne : ∀ v ∈ vs, v ≠ "") :
    matchSegs ts (subst ts vs) = .ok (holeAttrs ts vs) := by
  induction ts generalizing vs with
  | nil => simp [subst, matchSegs, holeAttrs]
  | cons t ts ih =>
    cases t with
    | lit s =>
      simp only [subst, matchSegs, if_pos rfl, holeAttrs]
      exact ih vs hlen hne
    | hole k suf =>
      cases vs with
      | nil => simp [numHoles] at hlen
      | cons v vs =>
        have hv : v ≠ "" := hne v (List.mem_cons_self _ _)
        have hrec := ih vs (by simpa [numHoles] using hlen)
          (fun u hu => hne u (List.mem_cons_of_mem _ hu))
        simp only [subst, matchSegs, stripSuffix_append, if_neg hv, hrec, holeAttrs]

/-- C3: `parse` round-trips — for every template and assignment of non-empty
segment values to its placeholders, parsing the path obtained by substituting
those values into the template yields a FileRecord whose key/value mapping is
exactly those values, in template order. -/
theorem parse_roundtrip (tmpl : List TSeg) (vs : List String)
    (hlen : vs.length = numHoles tmpl) (hne : ∀ v ∈ vs, v ≠ "") :
    parse (subst tmpl vs) tmpl = .ok ⟨subst tmpl vs, holeAttrs tmpl vs⟩ := by
  unfold parse
  rw [subst_length, if_neg (lt_irrefl _), Nat.sub_self, List.drop_zero,
    matchSegs_subst tmpl vs hlen hne]

/-- Witness for C3: the template `d/{user}/{genres}.wav` with values
`["u1", "disco"]`. -/
theorem parse_roundtrip_witness :
    (["u1", "disco"] : List String).length =
        numHoles [TSeg.lit "d", TSeg.hole "user" "", TSeg.hole "genres" ".wav"] ∧
    parse (subst [TSeg.lit "d", TSeg.hole "user" "", TSeg.hole "genres" ".wav"] ["u1", "disco"])
        [TSeg.lit "d", TSeg.hole "user" "", TSeg.hole "genres" ".wav"] =
      .ok ⟨subst [TSeg.lit "d", TSeg.hole "user" "", TSeg.hole "genres" ".wav"] ["u1", "disco"],
        holeAttrs [TSeg.lit "d", TSeg.hole "user" "", TSeg.hole "genres" ".wav"] ["u1", "disco"]⟩ :=
  ⟨by decide, parse_roundtrip _ _ (by decide) (by decide)⟩

theorem matchSegs_error_iff (ts : List TSeg) :
    ∀ ps : List String, ts.length = ps.length →
      ((∃ e, matchSegs ts ps = .error e) ↔ ∃ x ∈ ts.zip ps, segMismatch x.1 x.2) := by
  induction ts with
  | nil =>
    intro ps h
    cases ps with
    | nil => simp [matchSegs]
    | cons p ps => simp at h
  | cons t ts ih =>
    intro ps h
    cases ps with
    | nil => simp at h
    | cons p ps =>
      have hlen : ts.length = ps.length := by simpa using h
      have ihp := ih ps hlen
      cases t with
      | lit s =>
        by_cases hp : p = s
        · simp only [matchSegs, if_pos hp, List.zip_cons_cons, List.mem_cons]
          constructor
          · intro hx
            obtain ⟨x, hx1, hx2⟩ := ihp.1 hx
            exact ⟨x, Or.inr hx1, hx2⟩
          · rintro ⟨x, hx1 | hx1, hx2⟩
            · subst hx1
              exact absurd hp hx2
            · exact ihp.2 ⟨x, hx1, hx2⟩
        · simp only [matchSegs, if_neg hp, List.zip_cons_cons, List.mem_cons]
          constructor
          · intro _
            exact ⟨(.lit s, p), Or.inl rfl, hp⟩
          · intro _
            exact ⟨.literalMismatch, rfl⟩
      | hole k suf =>
        cases hs : stripSuffix p suf with
        | none =>
          simp only [matchSegs, hs, List.zip_cons_cons, List.mem_cons]
          constructor
          · intro _
            exact ⟨(.hole k suf, p), Or.inl rfl, Or.inl hs⟩
          · intro _
            exact ⟨.literalMismatch, rfl⟩
        | some v =>
          by_cases hv : v = ""
          · subst hv
            simp only [matchSegs, hs, if_pos rfl, List.zip_cons_cons, List.mem_cons]
            constructor
            · intro _
              exact ⟨(.hole k suf, p), Or.inl rfl, Or.inr hs⟩
            · intro _
              exact ⟨.emptySegment, rfl⟩
          · have hmm : ¬ segMismatch (.hole k suf) p := by
              simp [segMismatch, hs, hv]
            cases hr : matchSegs ts ps with
            | error e =>
              simp only [matchSegs, hs, if_neg hv, hr, List.zip_cons_cons, List.mem_cons]
              constructor
              · intro _
                obtain ⟨x, hx1, hx2⟩ := ihp.1 ⟨e, hr⟩
                exact ⟨x, Or.inr hx1, hx2⟩
              · intro _
                exact ⟨e, rfl⟩
            | ok rest =>
              simp only [matchSegs, hs, if_neg hv, hr, List.zip_cons_cons, List.mem_cons]
              constructor
              · rintro ⟨e, he⟩
                simp at he
              · rintro ⟨x, hx1 | hx1, hx2⟩
                · subst hx1
                  exact absurd hx2 hmm
                · obtain ⟨e, he⟩ := ihp.2 ⟨x, hx1, hx2⟩
                  rw [hr] at he
                  simp at he

/-- C4: `parse(path, template)` returns a `ParseError` if and only if the path
has fewer segments than the template, or a segment of the template fails to
match the positionally corresponding trailing path segment (a differing
literal segment, a placeholder whose literal suffix does not match, or a
placeholder matched to an empty value); otherwise it returns a FileRecord. -/
theorem parse_error_characterization (path : List String) (tmpl : List TSeg) :
    ((∃ e, parse path tmpl = .error e) ↔
      path.length < tmpl.length ∨
        ∃ x ∈ tmpl.zip (path.drop (path.length - tmpl.length)), segMismatch x.1 x.2) ∧
    ((∃ r, parse path tmpl = .ok r) ↔
      ¬(path.length < tmpl.length ∨
        ∃ x ∈ tmpl.zip (path.drop (path.length - tmpl.length)), segMismatch x.1 x.2)) := by
  by_cases hl : path.length < tmpl.length
  · unfold parse
    rw [if_pos hl]
    constructor
    · simp [hl]
    · simp [hl]
  · have hlen : tmpl.length = (path.drop (path.length - tmpl.length)).length := by
      rw [List.length_drop]
      omega
    have hiff := matchSegs_error_iff tmpl _ hlen
    unfold parse
    rw [if_neg hl]
    cases hm : matchSegs tmpl (path.drop (path.length - tmpl.length)) with
    | error e =>
      constructor
      · constructor
        · intro _
          exact Or.inr (hiff.1 ⟨e, hm⟩)
        · intro _
          exact ⟨e, rfl⟩
      · constructor
        · rintro ⟨r, hr⟩
          simp at hr
        · intro hc
          exact absurd (Or.inr (hiff.1 ⟨e, hm⟩)) hc
    | ok attrs =>
      have hno : ¬ ∃ x ∈ tmpl.zip (path.drop (path.length - tmpl.length)), segMismatch x.1 x.2 := by
        intro hx
        obtain ⟨e, he⟩ := hiff.2 hx
        rw [hm] at he
        simp at he
      constructor
      · constructor
        · rintro ⟨e, he⟩
          simp at he
        · rintro (h | h)
          · exact absurd h hl
          · exact absurd h hno
      · constructor
        · rintro - (h | h)
          · exact hl h
          · exact hno h
        · intro _
          exact ⟨⟨path, attrs⟩, rfl⟩

theorem insertRec_flatten (m : GroupMap) (t : List String) (r : FileRecord) :
    List.Perm (((insertRec t r m).map Prod.snd).flatten) ((m.map Prod.snd).flatten ++ [r]) := by
  induction m with
  | nil => simp [insertRec]
  | cons tb rest ih =>
    obtain ⟨t', b⟩ := tb
    by_cases h : t' = t
    · simp only [insertRec, if_pos h, List.map_cons, List.flatten_cons]
      rw [List.append_assoc, List.append_assoc]
      exact List.Perm.append_left _ List.perm_append_comm
    · simp only [insertRec, if_neg h, List.map_cons, List.flatten_cons]
      rw [List.append_assoc]
      exact List.Perm.append_left _ ih

theorem groupAux_perm (keys : List String) (rs : List FileRecord) :
    ∀ m m', groupAux keys m rs = .ok m' →
      List.Perm ((m'.map Prod.snd).flatten) ((m.map Prod.snd).flatten ++ rs) := by
  induction rs with
  | nil =>
    intro m m' h
    simp only [groupAux] at h
    cases h
    simp
  | cons r rs ih =>
    intro m m' h
    simp only [groupAux] at h
    cases hp : proj r keys with
    | error e =>
      rw [hp] at h
      simp at h
    | ok t =>
      rw [hp] at h
      have h2 := List.Perm.append_right rs (insertRec_flatten m t r)
      rw [List.append_assoc, List.singleton_append] at h2
      exact (ih _ _ h).trans h2

/-- C1: for every record list `R` and key subset `K` on which `group`
succeeds, the concatenation of all groups' members is a permutation of `R`
(partition property: every record in exactly one group, none dropped, none
duplicated), and the mapping is non-empty iff `R` is non-empty. -/
theorem group_partition (R : List FileRecord) (K : List String) (m : GroupMap)
    (h : group R K = .ok m) :
    List.Perm ((m.map Prod.snd).flatten) R ∧ (m ≠ [] ↔ R ≠ []) := by
  have hp := groupAux_perm K R [] m h
  simp only [List.map_nil, List.flatten_nil, List.nil_append] at hp
  refine ⟨hp, ?_, ?_⟩
  · intro hm hR
    rw [hR] at h
    simp only [group, groupAux] at h
    cases h
    exact hm rfl
  · intro hR hm
    rw [hm] at hp
    simp only [List.map_nil, List.flatten_nil] at hp
    exact hR hp.symm.eq_nil

/-- Witness for C1: two records sharing the key value `a` under key `k`. -/
theorem group_partition_witness :
    List.Perm ((([(["a"], [wrec1, wrec2])] : GroupMap).map Prod.snd).flatten) [wrec1, wrec2] ∧
      (([(["a"], [wrec1, wrec2])] : GroupMap) ≠ [] ↔ ([wrec1, wrec2] : List FileRecord) ≠ []) :=
  group_partition [wrec1, wrec2] ["k"] [(["a"], [wrec1, wrec2])] rfl

theorem map_fst_insertRec (m : GroupMap) (t : List String) (r : FileRecord) :
    (insertRec t r m).map Prod.fst = insertKeys (m.map Prod.fst) t := by
  induction m with
  | nil => simp [insertRec, insertKeys]
  | cons tb rest ih =>
    obtain ⟨t', b⟩ := tb
    by_cases h : t' = t
    · subst h
      simp [insertRec, insertKeys]
    · simp only [insertRec, if_neg h, List.map_cons, ih, insertKeys]
      by_cases hm : t ∈ rest.map Prod.fst
      · rw [if_pos hm, if_pos (List.mem_cons_of_mem _ hm)]
      · rw [if_neg hm, if_neg (by
          intro hc
          rcases List.mem_cons.1 hc with hc | hc
          · exact h hc.symm
          · exact hm hc)]
        rw [List.cons_append]

theorem groupAux_fst (keys : List String) (rs : List FileRecord) :
    ∀ m m', groupAux keys m rs = .ok m' →
      ∃ ts, projs keys rs = .ok ts ∧
        m'.map Prod.fst = ts.foldl insertKeys (m.map Prod.fst) := by
  induction rs with
  | nil =>
    intro m m' h
    simp only [groupAux] at h
    cases h
    exact ⟨[], rfl, rfl⟩
  | cons r rs ih =>
    intro m m' h
    simp only [groupAux] at h
    cases hp : proj r keys with
    | error e =>
      rw [hp] at h
      simp at h
    | ok t =>
      rw [hp] at h
      obtain ⟨ts, hts, hfst⟩ := ih _ _ h
      refine ⟨t :: ts, ?_, ?_⟩
      · simp only [projs, hp, hts]
      · rw [hfst, map_fst_insertRec, List.foldl_cons]

theorem filter_not_mem_append_singleton (ts : List (List String)) (acc : List (List String))
    (t : List String) :
    ts.filter (fun u => decide (u ∉ acc ++ [t])) =
      (ts.filter (fun u => decide (u ∉ acc))).filter (fun u => decide (u ≠ t)) := by
  rw [List.filter_filter]
  apply List.filter_congr
  intro u _
  by_cases h1 : u ∈ acc <;> by_cases h2 : u = t <;> simp [h1, h2, List.mem_append]

theorem foldl_insertKeys_eq (ts : List (List String)) :
    ∀ acc, ts.foldl insertKeys acc =
      acc ++ firstSeen (ts.filter (fun u => decide (u ∉ acc))) := by
  induction ts with
  | nil =>
    intro acc
    simp [firstSeen]
  | cons t ts ih =>
    intro acc
    rw [List.foldl_cons, ih]
    by_cases h : t ∈ acc
    · have hik : insertKeys acc t = acc := by simp [insertKeys, h]
      rw [hik, List.filter_cons]
      simp [h]
    · have hik : insertKeys acc t = acc ++ [t] := by simp [insertKeys, h]
      rw [hik, List.filter_cons]
      simp only [h, not_false_iff, decide_True, if_pos]
      rw [firstSeen, filter_not_mem_append_singleton]
      rw [List.append_assoc, List.singleton_append]

theorem group_map_fst_firstSeen (R : List FileRecord) (K : List String) (m : GroupMap)
    (h : group R K = .ok m) :
    ∃ ts, projs K R = .ok ts ∧ m.map Prod.fst = firstSeen ts := by
  obtain ⟨ts, hts, hfst⟩ := groupAux_fst K R [] m h
  refine ⟨ts, hts, ?_⟩
  rw [hfst, foldl_insertKeys_eq]
  simp

/-- C2: `group` is deterministic and stable — two calls on the same inputs
yield the same result, and the iteration order of output groups is the
first-seen order of distinct key-tuples in the input sequence. -/
theorem group_deterministic_stable (R : List FileRecord) (K : List String) (m : GroupMap)
    (ts : List (List String)) (h : group R K = .ok m) (hts : projs K R = .ok ts) :
    group R K = group R K ∧ m.map Prod.fst = firstSeen ts := by
  refine ⟨rfl, ?_⟩
  obtain ⟨ts', hts', hfst⟩ := group_map_fst_firstSeen R K m h
  rw [hts] at hts'
  cases hts'
  exact hfst

/-- Witness for C2: the two-record universe; both records project to `["a"]`
and the single group's key-tuple list is `firstSeen [["a"], ["a"]]`. -/
theorem group_deterministic_stable_witness :
    group [wrec1, wrec2] ["k"] = group [wrec1, wrec2] ["k"] ∧
      ([(["a"], [wrec1, wrec2])] : GroupMap).map Prod.fst = firstSeen [["a"], ["a"]] :=
  group_deterministic_stable [wrec1, wrec2] ["k"] [(["a"], [wrec1, wrec2])] [["a"], ["a"]]
    rfl rfl

theorem mem_of_mem_firstSeen (l : List (List String)) :
    ∀ x, x ∈ firstSeen l → x ∈ l := by
  induction l using firstSeen.induct with
  | case1 =>
    intro x hx
    simp [firstSeen] at hx
  | case2 t ts ih =>
    intro x hx
    rw [firstSeen] at hx
    rcases List.mem_cons.1 hx with h | h
    · exact h ▸ List.mem_cons_self _ _
    · exact List.mem_cons_of_mem _ (List.mem_of_mem_filter (ih x h))

theorem firstSeen_nodup (l : List (List String)) : (firstSeen l).Nodup := by
  induction l using firstSeen.induct with
  | case1 => simp [firstSeen]
  | case2 t ts ih =>
    rw [firstSeen]
    refine List.nodup_cons.2 ⟨?_, ih⟩
    intro hc
    have := List.of_mem_filter (mem_of_mem_firstSeen _ _ hc)
    simp at this

theorem toFinset_firstSeen (l : List (List String)) :
    (firstSeen l).toFinset = l.toFinset := by
  induction l using firstSeen.induct with
  | case1 => rw [firstSeen]
  | case2 t ts ih =>
    rw [firstSeen]
    simp only [List.toFinset_cons, ih]
    ext x
    by_cases hx : x = t <;> simp [hx, List.mem_filter]

/-- C5: for every record sequence and key subset on which `group` succeeds,
the number of groups equals the number of distinct ordered projections of the
records onto the keys. -/
theorem group_count_distinct (R : List FileRecord) (K : List String) (m : GroupMap)
    (ts : List (List String)) (h : group R K = .ok m) (hts : projs K R = .ok ts) :
    m.length = ts.toFinset.card := by
  obtain ⟨ts', hts', hfst⟩ := group_map_fst_firstSeen R K m h
  rw [hts] at hts'
  cases hts'
  have h1 : m.length = (firstSeen ts).length := by
    rw [← hfst, List.length_map]
  rw [h1, ← List.toFinset_card_of_nodup (firstSeen_nodup ts), toFinset_firstSeen]

/-- Witness for C5: the two-record universe yields one group and its records
have exactly one distinct projection. -/
theorem group_count_distinct_witness :
    ([(["a"], [wrec1, wrec2])] : GroupMap).length =
      ([["a"], ["a"]] : List (List String)).toFinset.card :=
  group_count_distinct [wrec1, wrec2] ["k"] [(["a"], [wrec1, wrec2])] [["a"], ["a"]] rfl rfl

theorem proj_error_iff (r : FileRecord) (keys : List String) :
    (∃ e, proj r keys = .error e) ↔ ∃ k ∈ keys, lookupKey k r.attrs = none := by
  induction keys with
  | nil => simp [proj]
  | cons k ks ih =>
    cases hl : lookupKey k r.attrs with
    | none =>
      simp only [proj, hl]
      constructor
      · intro _
        exact ⟨k, List.mem_cons_self _ _, hl⟩
      · intro _
        exact ⟨⟨k, r⟩, rfl⟩
    | some v =>
      cases hp : proj r ks with
      | error e =>
        simp only [proj, hl, hp]
        constructor
        · intro _
          obtain ⟨k', hk1, hk2⟩ := ih.1 ⟨e, hp⟩
          exact ⟨k', List.mem_cons_of_mem _ hk1, hk2⟩
        · intro _
          exact ⟨e, rfl⟩
      | ok vs =>
        simp only [proj, hl, hp]
        constructor
        · rintro ⟨e, he⟩
          simp at he
        · rintro ⟨k', hk1, hk2⟩
          rcases List.mem_cons.1 hk1 with hk | hk
          · rw [hk] at hk2
            rw [hk2] at hl
            cases hl
          · obtain ⟨e, he⟩ := ih.2 ⟨k', hk, hk2⟩
            rw [hp] at he
            cases he

theorem proj_error_name (r : FileRecord) (keys : List String) :
    ∀ e, proj r keys = .error e →
      e.key ∈ keys ∧ e.record = r ∧ lookupKey e.key r.attrs = none := by
  induction keys with
  | nil =>
    intro e he
    simp [proj] at he
  | cons k ks ih =>
    intro e he
    cases hl : lookupKey k r.attrs with
    | none =>
      rw [proj, hl] at he
      cases he
      exact ⟨List.mem_cons_self _ _, rfl, hl⟩
    | some v =>
      rw [proj, hl] at he
      cases hp : proj r ks with
      | error e' =>
        rw [hp] at he
        cases he
        obtain ⟨h1, h2, h3⟩ := ih e hp
        exact ⟨List.mem_cons_of_mem _ h1, h2, h3⟩
      | ok vs =>
        rw [hp] at he
        cases he

theorem groupAux_error_iff (keys : List String) (rs : List FileRecord) :
    ∀ m, (∃ e, groupAux keys m rs = .error e) ↔ ∃ r ∈ rs, ∃ e, proj r keys = .error e := by
  induction rs with
  | nil =>
    intro m
    simp [groupAux]
  | cons r rs ih =>
    intro m
    cases hp : proj r keys with
    | error e =>
      simp only [groupAux, hp]
      constructor
      · intro _
        exact ⟨r, List.mem_cons_self _ _, e, hp⟩
      · intro _
        exact ⟨e, rfl⟩
    | ok t =>
      simp only [groupAux, hp]
      constructor
      · intro hx
        obtain ⟨r', h1, h2⟩ := (ih _).1 hx
        exact ⟨r', List.mem_cons_of_mem _ h1, h2⟩
      · rintro ⟨r', h1, e, h2⟩
        rcases List.mem_cons.1 h1 with hr | hr
        · rw [hr] at h2
          rw [h2] at hp
          cases hp
        · exact (ih _).2 ⟨r', hr, e, h2⟩

theorem groupAux_error_name (keys : List String) (rs : List FileRecord) :
    ∀ m e, groupAux keys m rs = .error e →
      e.record ∈ rs ∧ e.key ∈ keys ∧ lookupKey e.key e.record.attrs = none := by
  induction rs with
  | nil =>
    intro m e he
    simp [groupAux] at he
  | cons r rs ih =>
    intro m e he
    cases hp : proj r keys with
    | error e' =>
      rw [groupAux, hp] at he
      cases he
      obtain ⟨h1, h2, h3⟩ := proj_error_name r keys e hp
      refine ⟨?_, h1, ?_⟩
      · rw [h2]
        exact List.mem_cons_self _ _
      · rw [h2]
        exact h3
    | ok t =>
      rw [groupAux, hp] at he
      obtain ⟨h1, h2, h3⟩ := ih _ e he
      exact ⟨List.mem_cons_of_mem _ h1, h2, h3⟩

/-- C7: `group(records, keys)` fails with a `MissingKeyError` naming an
offending key and record exactly when some key of `keys` is absent from some
record; when every key exists in every record, `group` succeeds. -/
theorem group_missing_key (R : List FileRecord) (K : List String) :
    ((∃ e, group R K = .error e) ↔ ∃ r ∈ R, ∃ k ∈ K, lookupKey k r.attrs = none) ∧
    (∀ e, group R K = .error e →
      e.record ∈ R ∧ e.key ∈ K ∧ lookupKey e.key e.record.attrs = none) ∧
    ((∀ r ∈ R, ∀ k ∈ K, lookupKey k r.attrs ≠ none) → ∃ m, group R K = .ok m) := by
  have hiff : (∃ e, group R K = .error e) ↔ ∃ r ∈ R, ∃ k ∈ K, lookupKey k r.attrs = none := by
    rw [group, groupAux_error_iff]
    constructor
    · rintro ⟨r, h1, h2⟩
      obtain ⟨k, hk1, hk2⟩ := (proj_error_iff r K).1 h2
      exact ⟨r, h1, k, hk1, hk2⟩
    · rintro ⟨r, h1, k, hk1, hk2⟩
      exact ⟨r, h1, (proj_error_iff r K).2 ⟨k, hk1, hk2⟩⟩
  refine ⟨hiff, ?_, ?_⟩
  · intro e he
    exact groupAux_error_name K R [] e he
  · intro hall
    cases hg : group R K with
    | ok m => exact ⟨m, rfl⟩
    | error e =>
      obtain ⟨r, h1, k, h2, h3⟩ := hiff.1 ⟨e, hg⟩
      exact absurd h3 (hall r h1 k h2)

theorem keyElem_iff (k : String) (l : List String) : keyElem k l = true ↔ k ∈ l := by
  induction l with
  | nil => simp [keyElem]
  | cons x xs ih =>
    by_cases h : x = k
    · simp [keyElem, h]
    · simp only [keyElem, if_neg h, ih, List.mem_cons]
      constructor
      · exact Or.inr
      · rintro (hk | hk)
        · exact absurd hk.symm h
        · exact hk

theorem allKeysIn_iff (r d : List String) : allKeysIn r d = true ↔ ∀ k ∈ r, k ∈ d := by
  induction r with
  | nil => simp [allKeysIn]
  | cons k ks ih =>
    cases he : keyElem k d with
    | false =>
      have hk : k ∉ d := fun hc => by
        rw [← keyElem_iff, he] at hc
        cases hc
      simp only [allKeysIn, he]
      constructor
      · intro hc
        simp at hc
      · intro hall
        exact absurd (hall k (List.mem_cons_self _ _)) hk
    | true =>
      have hk : k ∈ d := (keyElem_iff k d).1 he
      simp only [allKeysIn, he, List.mem_cons, forall_eq_or_imp]
      rw [if_true, ih]
      exact (and_iff_right hk).symm

theorem hasDup_iff (l : List String) : hasDup l = true ↔ ¬ l.Nodup := by
  induction l with
  | nil => simp [hasDup]
  | cons k ks ih =>
    cases he : keyElem k ks with
    | false =>
      have hk : k ∉ ks := fun hc => by
        rw [← keyElem_iff, he] at hc
        cases hc
      simp only [hasDup, he, List.nodup_cons]
      rw [if_neg Bool.false_ne_true, ih]
      constructor
      · intro hn hc
        exact hn hc.2
      · intro hn hnd
        exact hn ⟨hk, hnd⟩
    | true =>
      have hk : k ∈ ks := (keyElem_iff k ks).1 he
      simp only [hasDup, he, List.nodup_cons]
      rw [if_true]
      constructor
      · intro _ hc
        exact hc.1 hk
      · intro _
        rfl

/-- C8: `validate_partition_keys(discovered, requested)` returns
`InvalidKeyError` exactly when `requested` contains a name absent from
`discovered` or contains a duplicated name, and returns `ok` otherwise. -/
theorem validate_partition_keys_characterization (d r : List String) :
    (validate_partition_keys d r = .invalidKeyError ↔ (∃ k ∈ r, k ∉ d) ∨ ¬ r.Nodup) ∧
    (validate_partition_keys d r = .ok ↔ ¬((∃ k ∈ r, k ∉ d) ∨ ¬ r.Nodup)) := by
  unfold validate_partition_keys
  cases ha : allKeysIn r d with
  | false =>
    have hmem : ∃ k ∈ r, k ∉ d := by
      by_contra hc
      push_neg at hc
      have h2 : allKeysIn r d = true := (allKeysIn_iff r d).2 hc
      rw [ha] at h2
      cases h2
    rw [if_neg Bool.false_ne_true]
    constructor
    · constructor
      · intro _
        exact Or.inl hmem
      · intro _
        rfl
    · constructor
      · intro hc
        cases hc
      · intro hc
        exact absurd (Or.inl hmem) hc
  | true =>
    have hmem : ¬ ∃ k ∈ r, k ∉ d := by
      rintro ⟨k, hk1, hk2⟩
      exact hk2 ((allKeysIn_iff r d).1 ha k hk1)
    rw [if_pos rfl]
    cases hd : hasDup r with
    | true =>
      have hnd : ¬ r.Nodup := (hasDup_iff r).1 hd
      rw [if_pos rfl]
      constructor
      · constructor
        · intro _
          exact Or.inr hnd
        · intro _
          rfl
      · constructor
        · intro hc
          cases hc
        · intro hc
          exact absurd (Or.inr hnd) hc
    | false =>
      have hnd : r.Nodup := by
        by_contra hc
        have h2 : hasDup r = true := (hasDup_iff r).2 hc
        rw [hd] at h2
        cases h2
      rw [if_neg Bool.false_ne_true]
      constructor
      · constructor
        · intro hc
          cases hc
        · rintro (hc | hc)
          · exact absurd hc hmem
          · exact absurd hnd hc
      · constructor
        · intro _
          rintro (hc | hc)
          · exact hmem hc
          · exact hc hnd
        · intro _
          rfl

/-- C6: on the six records parsed from the notebook's example paths with
template `{user}/{season}/{genres}.wav`, grouping by `[user, genres]` yields
exactly the five groups `(user1,disco)`, `(user1,orchestra)`,
`(user2,piano)`, `(user3,spirituality)` with one file each, and
`(user4,piano)` with the two `user4` files. -/
theorem example_five_groups :
    parse exPath1 exTemplate = .ok exRec1 ∧
    parse exPath2 exTemplate = .ok exRec2 ∧
    parse exPath3 exTemplate = .ok exRec3 ∧
    parse exPath4 exTemplate = .ok exRec4 ∧
    parse exPath5 exTemplate = .ok exRec5 ∧
    parse exPath6 exTemplate = .ok exRec6 ∧
    group [exRec1, exRec2, exRec3, exRec4, exRec5, exRec6] ["user", "genres"] =
      .ok [(["user1", "disco"], [exRec1]),
           (["user1", "orchestra"], [exRec2]),
           (["user2", "piano"], [exRec3]),
           (["user3", "spirituality"], [exRec4]),
           (["user4", "piano"], [exRec5, exRec6])] :=
  ⟨rfl, rfl, rfl, rfl, rfl, rfl, rfl⟩

end PartitionGrouper

/-! ## Theorems about the RAPIDS notebook wrapper -/

namespace RapidsNotebook

/-- C9: `run_rapids_experiment` raises before constructing or submitting any
experiment exactly when `gpu_count` is not one of 1, 2, 3, 4; every accepted
`gpu_count` passes the GPU-count check without raising. -/
theorem run_rapids_gpu_check (c : Bool) (g p : Int) :
    (∃ e, run_rapids_experiment c g p = .error e) ↔ ¬(g = 1 ∨ g = 2 ∨ g = 3 ∨ g = 4) := by
  unfold run_rapids_experiment
  by_cases h : g = 1 ∨ g = 2 ∨ g = 3 ∨ g = 4
  · rw [if_pos h]
    simp [h]
  · rw [if_neg h]
    simp [h]

/-- C10: for every accepted `gpu_count` and every `part_count`, the experiment
is submitted (warnings are print-only and never prevent submission) with
`--part_count` equal to `min(part_count, 11)` and `--end_year` equal to 2001
when `min(part_count, 11) > 4` and 2000 otherwise. -/
theorem run_rapids_submits (c : Bool) (g p : Int)
    (h : g = 1 ∨ g = 2 ∨ g = 3 ∨ g = 4) :
    run_rapids_experiment c g p =
      .ok (rapids_warnings g p,
        ⟨g, min p 11, if 4 < min p 11 then 2001 else 2000, c⟩) := by
  have hpc : (if (11 : Int) < p then (11 : Int) else p) = min p 11 := by
    rw [min_def]
    split_ifs <;> omega
  simp only [run_rapids_experiment]
  rw [if_pos h, hpc]

/-- Witness for C10: `gpu_count = 1`, `part_count = 20` — exceeding both the
per-GPU mapping (1 allows 3) and the cap of 11 — still submits, with
`part_count` capped to 11 and `end_year` 2001. -/
theorem run_rapids_submits_witness :
    run_rapids_experiment false 1 20 =
      .ok (rapids_warnings 1 20, ⟨1, 11, 2001, false⟩) := by
  have h := run_rapids_submits false 1 20 (Or.inl rfl)
  have hm : min (20 : Int) 11 = 11 := by norm_num
  rw [h, hm]
  norm_num

end RapidsNotebook
